import Mathlib

/-!
Shallow embedding of the revision-range resolution and changeset-aggregation
core of `git.go` (junit2otlp).

The functions `calculateCommits`, `checkGitProvider`, `contributeAttributes`,
`contributeCommitters`, `contributeFilesAndLines` and `mapToArray` are
translated from `src/git.go`.  The go-git library calls they perform
(`Branch`, `ResolveRevision`, `CommitObject`, `Head`, `Remote`, `MergeBase`,
`Log`, `Tree`, `Patch`) are modelled by computable functions over an explicit
repository value, following the library's documented semantics:

- the object store is a list of commits addressed by hash;
- `MergeBase` sorts the two commits by committer date, returns the older one
  when it is an ancestor of the newer one, and otherwise the maximal common
  ancestors (empty for unrelated histories, together with a nil error);
- `Log` with `From` and `Since` enumerates the commits reachable from the
  start commit by parent edges, each at most once, keeping those whose
  committer timestamp is not before the bound;
- `Tree.Patch` produces one entry per changed file with addition/deletion
  line counts from a minimal (LCS-based) per-file text diff, in the
  head-to-target direction in which the code calls it.

Go errors are modelled as `Option Err` at the contribution boundary (`none`
is Go's nil error) so that the behaviour of `pkg/errors.Wrapf` on a nil
error is represented faithfully, and as `Except Err` for `calculateCommits`.
Machine integers are modelled as unbounded `Int` (the counts involved are
line counts of concrete files; overflow is out of scope).
-/

/-- Author or committer identity of one commit: name, email and timestamp
(`When`), with the timestamp modelled as an integer. -/
structure Signature where
  name : String
  email : String
  when : Int
deriving DecidableEq

/-- A commit object: content hash, author and committer identities, parent
hashes and the hash of its tree snapshot. -/
structure Commit where
  hash : String
  author : Signature
  committer : Signature
  parents : List String
  treeHash : String
deriving DecidableEq

/-- A tree snapshot: file paths with their lines of text. -/
def GitTree : Type := List (String × List String)

instance : DecidableEq GitTree := by
  unfold GitTree
  infer_instance

/-- A local repository value: object store (commits and trees), branch
configurations (branch name to its configured merge reference), resolvable
references (reference name to hash), the current HEAD reference
(name and hash) and the configured remotes (name to URL list). -/
structure Repo where
  commits : List Commit
  trees : List (String × GitTree)
  branches : List (String × String)
  refs : List (String × String)
  headRef : Option (String × String)
  remotes : List (String × List String)
deriving DecidableEq

/-- Error kinds returned by the stages (the Go code wraps them in message
strings; only their presence and provenance matter to the orchestrator). -/
inductive Err where
  | unknownTargetBranch
  | unresolvableTargetRef
  | missingTargetCommit
  | noHeadRef
  | missingHeadCommit
  | noCommonAncestor
  | logFailure
  | missingHeadTree
  | missingTargetTree
deriving DecidableEq

/-- Model of `pkg/errors.Wrapf`: wrapping a nil error yields nil. -/
def wrapf (e : Option Err) (w : Err) : Option Err :=
  match e with
  | none => none
  | some _ => some w

/-- Telemetry attribute values used by the code: string, string slice and
integer. -/
inductive AttrValue where
  | str (v : String)
  | strList (v : List String)
  | int (v : Int)
deriving DecidableEq

/-- One telemetry key/value pair (`attribute.KeyValue`). -/
structure KeyValue where
  key : String
  value : AttrValue
deriving DecidableEq

/-- Modelled from the spec: the telemetry key-name constant `ScmType` is
defined outside `src/git.go`; section 6 of the spec gives the key names. -/
def ScmType : String := "scm-type"

/-- Modelled from the spec: key-name constant, see `ScmType`. -/
def ScmProvider : String := "scm-provider"

/-- Modelled from the spec: key-name constant, see `ScmType`. -/
def ScmRepository : String := "scm-repository"

/-- Modelled from the spec: key-name constant, see `ScmType`. -/
def ScmBranch : String := "scm-branch"

/-- Modelled from the spec: key-name constant, see `ScmType`. -/
def ScmAuthors : String := "scm-authors"

/-- Modelled from the spec: key-name constant, see `ScmType`. -/
def ScmCommitters : String := "scm-committers"

/-- Modelled from the spec: key-name constant, see `ScmType`. -/
def GitAdditions : String := "git-additions"

/-- Modelled from the spec: key-name constant, see `ScmType`. -/
def GitDeletions : String := "git-deletions"

/-- Modelled from the spec: key-name constant, see `ScmType`. -/
def GitModifiedFiles : String := "git-modified-files"

/-- Association-list lookup keyed by strings (model of the name-indexed
accessors `Branch`, `ResolveRevision`, `Remote` and the tree store). -/
def lookupStr {α : Type} (l : List (String × α)) (k : String) : Option α :=
  (l.find? (fun p => p.1 == k)).map Prod.snd

/-- `CommitObject`: fetch a commit from the object store by hash. -/
def lookupCommit (r : Repo) (h : String) : Option Commit :=
  r.commits.find? (fun c => c.hash == h)

/-- Parent hashes of the commit stored at a hash (no parents when the hash
is absent from the store). -/
def parentsOf (r : Repo) (h : String) : List String :=
  match lookupCommit r h with
  | some c => c.parents
  | none => []

/-- One parent edge of the commit graph. -/
def parentStep (r : Repo) (a b : String) : Prop :=
  b ∈ parentsOf r a

/-- Declarative reachability along parent edges (a commit reaches itself). -/
def Reaches (r : Repo) (a b : String) : Prop :=
  Relation.ReflTransGen (parentStep r) a b

/-- Weight of a stored commit hash that the traversal has not visited yet:
one step to visit it plus one stack slot per parent. -/
def hashWeight (r : Repo) (acc : List String) (h : String) : Nat :=
  if h ∈ acc then 0 else 1 + (parentsOf r h).length

/-- Remaining traversal work over the whole object store. -/
def potential (r : Repo) (acc : List String) : Nat :=
  (r.commits.map (fun c => hashWeight r acc c.hash)).sum

/-- Fuel that provably suffices for a full traversal of the store. -/
def repoFuel (r : Repo) : Nat :=
  1 + potential r []

/-- Depth-first traversal of the commit graph with an explicit stack
(`frontier`) and visited list (`acc`), the shape of go-git's preorder
commit iterator.  Visited hashes are recorded in visit order and never
revisited. -/
def reachAux (r : Repo) : Nat → List String → List String → List String
  | 0, _, acc => acc
  | _ + 1, [], acc => acc
  | fuel + 1, h :: rest, acc =>
    if h ∈ acc then reachAux r fuel rest acc
    else reachAux r fuel (parentsOf r h ++ rest) (acc ++ [h])

/-- All hashes reachable from a start hash, in preorder. -/
def reachList (r : Repo) (s : String) : List String :=
  reachAux r (repoFuel r) [s] []

/-- Model of `repository.Log` with `From` and `Since`: fails when the start
commit cannot be fetched, otherwise yields the commits reachable from the
start, each at most once, whose committer timestamp is at or after the
bound (go-git keeps a commit unless its committer time is before `Since`). -/
def logCommits (r : Repo) (fromHash : String) (sinceWhen : Int) : Option (List Commit) :=
  match lookupCommit r fromHash with
  | none => none
  | some _ =>
    some (((reachList r fromHash).filterMap (lookupCommit r)).filter
      (fun c => decide (sinceWhen ≤ c.committer.when)))

/-- Common ancestors of two commits: hashes reachable from both, fetched
from the store. -/
def commonAncestors (r : Repo) (a b : Commit) : List Commit :=
  ((reachList r a.hash).filter (fun h => decide (h ∈ reachList r b.hash))).filterMap
    (lookupCommit r)

/-- go-git `Independents`: drop every commit reachable from another element
of the list. -/
def independents (r : Repo) (cs : List Commit) : List Commit :=
  cs.filter (fun c => decide (¬ ∃ d ∈ cs, d.hash ≠ c.hash ∧ c.hash ∈ reachList r d.hash))

/-- Model of go-git `Commit.MergeBase`: order the two commits by committer
date, answer the older one when it is an ancestor of the newer one, and
otherwise the independent (maximal) common ancestors — the empty list for
unrelated histories, in which case go-git also returns a nil error. -/
def mergeBase (r : Repo) (c other : Commit) : List Commit :=
  let sorted := if other.committer.when > c.committer.when then (other, c) else (c, other)
  let newer := sorted.1
  let older := sorted.2
  if older.hash ∈ reachList r newer.hash then [older]
  else independents r (commonAncestors r c other)

/-- Model of `plumbing.NewHash`: an explicit head revision string is taken
directly as a content hash, with no symbolic lookup. -/
def newHash (s : String) : String := s

/-- Translation of `calculateCommits` (src/git.go lines 21-55): resolve the
target branch configuration, its merge reference and its commit, then the
head commit (explicit sha when supplied, otherwise the current HEAD
reference). -/
def calculateCommits (r : Repo) (headSha targetBranchEnv : String) :
    Except Err (Commit × Commit) :=
  match lookupStr r.branches targetBranchEnv with
  | none => .error .unknownTargetBranch
  | some targetBranchMerge =>
    match lookupStr r.refs targetBranchMerge with
    | none => .error .unresolvableTargetRef
    | some targetRef =>
      match lookupCommit r targetRef with
      | none => .error .missingTargetCommit
      | some targetCommit =>
        match (if headSha = "" then
                 match r.headRef with
                 | none => Except.error Err.noHeadRef
                 | some headRef => Except.ok headRef.2
               else Except.ok (newHash headSha) : Except Err String) with
        | .error e => .error e
        | .ok headRefSha =>
          match lookupCommit r headRefSha with
          | none => .error .missingHeadCommit
          | some headCommit => .ok (headCommit, targetCommit)

/-- The environment variables read by `checkGitProvider`. -/
structure Env where
  githubSha : String
  githubBaseRef : String
  gitlabSourceSha : String
  gitlabTargetBranchName : String
  targetBranch : String
deriving DecidableEq

/-- Translation of `checkGitProvider` (src/git.go lines 60-77): head sha,
target branch and provider name from the Github, Gitlab or tool-specific
environment variables. -/
def checkGitProvider (env : Env) : String × String × String :=
  if env.githubSha ≠ "" ∧ env.githubBaseRef ≠ "" then
    (env.githubSha, env.githubBaseRef, "Github")
  else if env.gitlabSourceSha ≠ "" ∧ env.gitlabTargetBranchName ≠ "" then
    (env.gitlabSourceSha, env.gitlabTargetBranchName, "Gitlab")
  else
    ("", env.targetBranch, "")

/-- Insertion into the key set of a Go map used as a set: adding a present
key changes nothing. -/
def insertKey (s : List String) (x : String) : List String :=
  if x ∈ s then s else s ++ [x]

/-- The key set of the Go map filled by the `ForEach` callback: one entry
per distinct value of `f` over the visited commits, in first-visit order. -/
def collectEmails (f : Commit → String) (visited : List Commit) : List String :=
  visited.foldl (fun s c => insertKey s (f c)) []

/-- The two appends at the end of `contributeCommitters` (src/git.go lines
170-176): each list-valued attribute is emitted only when its set is
non-empty.  `mapToArray` is the enumeration of the Go map's keys. -/
def committersAttrs (mapToArray : List String → List String)
    (authors committers : List String) : List KeyValue :=
  (if authors.length > 0 then
    [⟨ScmAuthors, AttrValue.strList (mapToArray authors)⟩] else []) ++
  (if committers.length > 0 then
    [⟨ScmCommitters, AttrValue.strList (mapToArray committers)⟩] else [])

/-- Translation of `contributeCommitters` (src/git.go lines 136-179),
parameterised by the enumeration order of the Go maps' keys (Go map
iteration order is unspecified; `mapToArray` in src/git.go lines 223-230
observes it).  The merge-base error branch reproduces
`errors.Wrapf(err, ...)` applied to the nil error that go-git returns
together with an empty merge-base list. -/
def contributeCommittersEnum (mapToArray : List String → List String)
    (r : Repo) (headCommit targetCommit : Commit) : List KeyValue × Option Err :=
  let commits := mergeBase r headCommit targetCommit
  let mergeBaseGoError : Option Err := none
  match commits with
  | [] => ([], wrapf mergeBaseGoError Err.noCommonAncestor)
  | ancestor :: _ =>
    match logCommits r headCommit.hash ancestor.author.when with
    | none => ([], some Err.logFailure)
    | some visited =>
      let authors := collectEmails (fun c => c.author.email) visited
      let committers := collectEmails (fun c => c.committer.email) visited
      (committersAttrs mapToArray authors committers, none)

/-- `contributeCommitters` with the model's deterministic stand-in for the
Go map enumeration. -/
def contributeCommitters (r : Repo) (headCommit targetCommit : Commit) :
    List KeyValue × Option Err :=
  contributeCommittersEnum id r headCommit targetCommit

/-- Length of a longest common subsequence, fuel-indexed so that it reduces
by evaluation (the fuel is the sum of the lengths, which suffices). -/
def lcsLenF : Nat → List String → List String → Nat
  | 0, _, _ => 0
  | _ + 1, [], _ => 0
  | _ + 1, _, [] => 0
  | fuel + 1, a :: as, b :: bs =>
    if a = b then 1 + lcsLenF fuel as bs
    else max (lcsLenF fuel (a :: as) bs) (lcsLenF fuel as (b :: bs))

/-- Length of a longest common subsequence of two line lists. -/
def lcsLen (xs ys : List String) : Nat :=
  lcsLenF (xs.length + ys.length) xs ys

/-- One entry of `patch.Stats()`: file name with added and deleted line
counts. -/
structure FileStat where
  name : String
  addition : Int
  deletion : Int
deriving DecidableEq

/-- File contents at a path of a tree. -/
def lookupFile (t : GitTree) (p : String) : Option (List String) :=
  lookupStr t p

/-- The paths of a tree. -/
def treePaths (t : GitTree) : List String :=
  t.map Prod.fst

/-- Model of `fromTree.Patch(toTree).Stats()`: one entry per file that is
present in exactly one tree or differs between the two, with line counts
from a minimal per-file text diff (additions relative to the destination
tree, deletions relative to the source tree). -/
def patchStats (src dst : GitTree) : List FileStat :=
  ((treePaths src ++ treePaths dst).dedup).filterMap fun p =>
    match lookupFile src p, lookupFile dst p with
    | some fl, some tl =>
      if fl = tl then none
      else some ⟨p, (tl.length : Int) - (lcsLen fl tl : Int),
                    (fl.length : Int) - (lcsLen fl tl : Int)⟩
    | some fl, none => some ⟨p, 0, (fl.length : Int)⟩
    | none, some tl => some ⟨p, (tl.length : Int), 0⟩
    | none, none => none

/-- The accumulation step of the diffstat loop in `contributeFilesAndLines`
(src/git.go lines 209-214). -/
def statStep (acc : Int × Int × List String) (fileStat : FileStat) :
    Int × Int × List String :=
  (acc.1 + fileStat.addition, acc.2.1 + fileStat.deletion, acc.2.2 ++ [fileStat.name])

/-- Translation of `contributeFilesAndLines` (src/git.go lines 185-221):
materialise both trees, compute the patch from the HEAD tree to the target
tree and aggregate per-file additions, deletions and changed file names. -/
def contributeFilesAndLines (r : Repo) (headCommit targetCommit : Commit) :
    List KeyValue × Option Err :=
  match lookupStr r.trees headCommit.treeHash with
  | none => ([], some Err.missingHeadTree)
  | some headTree =>
    match lookupStr r.trees targetCommit.treeHash with
    | none => ([], some Err.missingTargetTree)
    | some targetTree =>
      let agg := (patchStats headTree targetTree).foldl statStep (0, 0, [])
      ([⟨GitAdditions, AttrValue.int agg.1⟩,
        ⟨GitDeletions, AttrValue.int agg.2.1⟩,
        ⟨GitModifiedFiles, AttrValue.int (agg.2.2.length : Int)⟩], none)

/-- The attributes present before any remote, branch or commit information
is looked up: the constant scm-type entry and the optional provider. -/
def baseAttrs (env : Env) : List KeyValue :=
  let gitProvider := (checkGitProvider env).2.2
  [⟨ScmType, AttrValue.str "git"⟩] ++
    (if gitProvider ≠ "" then [⟨ScmProvider, AttrValue.str gitProvider⟩] else [])

/-- Attributes a contribution stage adds to the bag: its list on success,
nothing on failure (the orchestrator logs and skips). -/
def okAttrs (p : List KeyValue × Option Err) : List KeyValue :=
  match p.2 with
  | none => p.1
  | some _ => []

/-- Translation of `contributeAttributes` (src/git.go lines 81-130); the
`Option Repo` argument is the outcome of `openLocalRepository` on the
receiver's repository path.  Every stage failure returns the attribute bag
accumulated so far; the two contribution stages are skipped individually
on failure. -/
def contributeAttributes (openResult : Option Repo) (env : Env) : List KeyValue :=
  match openResult with
  | none => []
  | some repository =>
    let headShaTargetProvider := checkGitProvider env
    let headSha := headShaTargetProvider.1
    let targetBranchEnv := headShaTargetProvider.2.1
    let gitProvider := headShaTargetProvider.2.2
    let gitAttributes : List KeyValue := [⟨ScmType, AttrValue.str "git"⟩]
    let gitAttributes := if gitProvider ≠ "" then
        gitAttributes ++ [⟨ScmProvider, AttrValue.str gitProvider⟩]
      else gitAttributes
    match lookupStr repository.remotes "origin" with
    | none => gitAttributes
    | some originUrls =>
      let gitAttributes := gitAttributes ++ [⟨ScmRepository, AttrValue.strList originUrls⟩]
      match repository.headRef with
      | none => gitAttributes
      | some branchRef =>
        let gitAttributes := gitAttributes ++ [⟨ScmBranch, AttrValue.str branchRef.1⟩]
        match calculateCommits repository headSha targetBranchEnv with
        | .error _ => gitAttributes
        | .ok headTarget =>
          let gitAttributes := gitAttributes ++
            okAttrs (contributeCommitters repository headTarget.1 headTarget.2)
          gitAttributes ++
            okAttrs (contributeFilesAndLines repository headTarget.1 headTarget.2)

/-- A repository whose object store is closed under parent references: the
situation in which go-git's commit iterator never aborts on a missing
object. -/
def ClosedRepo (r : Repo) : Prop :=
  ∀ c ∈ r.commits, ∀ p ∈ c.parents, (lookupCommit r p).isSome = true

instance (r : Repo) : Decidable (ClosedRepo r) := by
  unfold ClosedRepo
  infer_instance

/-- The keys of an attribute bag. -/
def keysOf (attrs : List KeyValue) : List String :=
  attrs.map KeyValue.key

/-- The pair at a list-valued key holds an element: the observable content
of the scm-authors and scm-committers attributes, independent of the
unspecified Go map enumeration order. -/
def attrElem (attrs : List KeyValue) (k e : String) : Prop :=
  ∃ v, KeyValue.mk k (AttrValue.strList v) ∈ attrs ∧ e ∈ v

/-- The traversal invariant: every parent of a visited hash is itself
visited or still on the stack. -/
def InvClosed (r : Repo) (frontier acc : List String) : Prop :=
  ∀ a ∈ acc, ∀ p ∈ parentsOf r a, p ∈ acc ∨ p ∈ frontier

/-- Identity builder for the concrete repositories below. -/
def sig (n e : String) (w : Int) : Signature :=
  ⟨n, e, w⟩

/-- Root commit of the three-commit scenario of section 8 of the spec:
an empty tree, authored at time 1. -/
def c4c1 : Commit :=
  ⟨"c1", sig "Alice" "alice@example.com" 1, sig "Alice" "alice@example.com" 1, [], "t1"⟩

/-- Second commit of the scenario: adds a.txt with three lines at time 2. -/
def c4c2 : Commit :=
  ⟨"c2", sig "Bob" "bob@example.com" 2, sig "Bob" "bob@example.com" 2, ["c1"], "t2"⟩

/-- Third commit of the scenario: modifies one line of a.txt at time 3. -/
def c4c3 : Commit :=
  ⟨"c3", sig "Carol" "carol@example.com" 3, sig "Carol" "carol@example.com" 3, ["c2"], "t3"⟩

/-- The scenario repository: C1 (root, empty tree) then C2 (adds a.txt with
three lines) then C3 (replaces one line of a.txt); branch main points at C1
and HEAD at C3. -/
def repo4 : Repo :=
  { commits := [c4c1, c4c2, c4c3]
    trees := [("t1", ([] : GitTree)),
              ("t2", ([("a.txt", ["one", "two", "three"])] : GitTree)),
              ("t3", ([("a.txt", ["one", "two", "four"])] : GitTree))]
    branches := [("main", "refs/heads/main")]
    refs := [("refs/heads/main", "c1")]
    headRef := some ("refs/heads/main", "c3")
    remotes := [("origin", ["https://example.com/r.git"])] }

/-- A root commit unrelated to `c2b`. -/
def c2a : Commit :=
  ⟨"a", sig "A" "a@example.com" 1, sig "A" "a@example.com" 1, [], "ta"⟩

/-- A root commit unrelated to `c2a`. -/
def c2b : Commit :=
  ⟨"b", sig "B" "b@example.com" 2, sig "B" "b@example.com" 2, [], "tb"⟩

/-- A repository with two independently rooted one-commit histories. -/
def repo2 : Repo :=
  { commits := [c2a, c2b], trees := [], branches := [], refs := [],
    headRef := none, remotes := [] }

/-- A single commit used for the head-equals-target scenarios. -/
def c5c : Commit :=
  ⟨"c1", sig "Alice" "alice@example.com" 1, sig "Alice" "alice@example.com" 1, [], "t1"⟩

/-- A single-commit repository with one stored tree. -/
def repo5 : Repo :=
  { commits := [c5c], trees := [("t1", ([("a.txt", ["hello"])] : GitTree))],
    branches := [], refs := [], headRef := none, remotes := [] }

/-- A commit whose committer timestamp (0) precedes its author timestamp
(5), so the bounded walk from it visits nothing. -/
def c7c : Commit :=
  ⟨"c1", sig "Alice" "alice@example.com" 5, sig "Alice" "alice@example.com" 0, [], "t1"⟩

/-- A one-commit repository realising an empty visited set. -/
def repo7 : Repo :=
  { commits := [c7c], trees := [], branches := [], refs := [],
    headRef := none, remotes := [] }

/-- The empty environment: no provider variables set. -/
def envEmpty : Env :=
  ⟨"", "", "", "", ""⟩

/-- The empty repository: open succeeds but nothing is configured. -/
def repoEmpty : Repo :=
  { commits := [], trees := [], branches := [], refs := [],
    headRef := none, remotes := [] }


theorem lookupCommit_hash {r : Repo} {h : String} {c : Commit}
    (hl : lookupCommit r h = some c) : c ∈ r.commits ∧ c.hash = h := by
  unfold lookupCommit at hl
  have hm := List.mem_of_find?_eq_some hl
  have hp := List.find?_some hl
  exact ⟨hm, by simpa using hp⟩

theorem reachAux_sub (r : Repo) :
    ∀ (n : Nat) (frontier acc : List String), acc ⊆ reachAux r n frontier acc := by
  intro n
  induction n with
  | zero => intro frontier acc; simp [reachAux]
  | succ n ih =>
    intro frontier acc
    match frontier with
    | [] => simp [reachAux]
    | h :: rest =>
      by_cases hmem : h ∈ acc
      · rw [show reachAux r (n + 1) (h :: rest) acc = reachAux r n rest acc from by
          simp [reachAux, hmem]]
        exact ih rest acc
      · rw [show reachAux r (n + 1) (h :: rest) acc
            = reachAux r n (parentsOf r h ++ rest) (acc ++ [h]) from by
          simp [reachAux, hmem]]
        exact (List.subset_append_left acc [h]).trans (ih _ _)

theorem reachAux_sound (r : Repo) :
    ∀ (n : Nat) (frontier acc : List String) (x : String),
      x ∈ reachAux r n frontier acc → x ∈ acc ∨ ∃ f ∈ frontier, Reaches r f x := by
  intro n
  induction n with
  | zero => intro frontier acc x hx; exact Or.inl (by simpa [reachAux] using hx)
  | succ n ih =>
    intro frontier acc x hx
    match frontier with
    | [] => exact Or.inl (by simpa [reachAux] using hx)
    | h :: rest =>
      by_cases hmem : h ∈ acc
      · rw [show reachAux r (n + 1) (h :: rest) acc = reachAux r n rest acc from by
          simp [reachAux, hmem]] at hx
        rcases ih rest acc x hx with h1 | ⟨f, hf, hr⟩
        · exact Or.inl h1
        · exact Or.inr ⟨f, List.mem_cons_of_mem _ hf, hr⟩
      · rw [show reachAux r (n + 1) (h :: rest) acc
            = reachAux r n (parentsOf r h ++ rest) (acc ++ [h]) from by
          simp [reachAux, hmem]] at hx
        rcases ih _ _ x hx with h1 | ⟨f, hf, hr⟩
        · rcases List.mem_append.1 h1 with h2 | h2
          · exact Or.inl h2
          · have hxh : x = h := by simpa using h2
            exact Or.inr ⟨h, List.mem_cons_self h rest, by rw [hxh]; exact Relation.ReflTransGen.refl⟩
        · rcases List.mem_append.1 hf with h2 | h2
          · exact Or.inr ⟨h, List.mem_cons_self h rest, Relation.ReflTransGen.head h2 hr⟩
          · exact Or.inr ⟨f, List.mem_cons_of_mem _ h2, hr⟩

theorem reachAux_nodup (r : Repo) :
    ∀ (n : Nat) (frontier acc : List String), acc.Nodup → (reachAux r n frontier acc).Nodup := by
  intro n
  induction n with
  | zero => intro frontier acc hacc; simpa [reachAux] using hacc
  | succ n ih =>
    intro frontier acc hacc
    match frontier with
    | [] => simpa [reachAux] using hacc
    | h :: rest =>
      by_cases hmem : h ∈ acc
      · rw [show reachAux r (n + 1) (h :: rest) acc = reachAux r n rest acc from by
          simp [reachAux, hmem]]
        exact ih rest acc hacc
      · rw [show reachAux r (n + 1) (h :: rest) acc
            = reachAux r n (parentsOf r h ++ rest) (acc ++ [h]) from by
          simp [reachAux, hmem]]
        exact ih _ _ (by simp [List.nodup_append, hacc, hmem])

theorem potential_mono (r : Repo) {acc acc2 : List String} (hsub : acc ⊆ acc2) :
    potential r acc2 ≤ potential r acc := by
  unfold potential
  apply List.sum_le_sum
  intro c _
  unfold hashWeight
  by_cases hm : c.hash ∈ acc
  · simp [hm, hsub hm]
  · by_cases hm2 : c.hash ∈ acc2 <;> simp [hm, hm2]

theorem potential_drop (r : Repo) {acc : List String} {h : String} {c : Commit}
    (hl : lookupCommit r h = some c) (hmem : h ∉ acc) :
    potential r (acc ++ [h]) + (1 + (parentsOf r h).length) ≤ potential r acc := by
  obtain ⟨hc, hh⟩ := lookupCommit_hash hl
  obtain ⟨l₁, l₂, hsplit⟩ := List.append_of_mem hc
  have hsub : acc ⊆ acc ++ [h] := List.subset_append_left _ _
  have hle : ∀ l : List Commit,
      (l.map (fun d => hashWeight r (acc ++ [h]) d.hash)).sum
        ≤ (l.map (fun d => hashWeight r acc d.hash)).sum := by
    intro l
    apply List.sum_le_sum
    intro d _
    unfold hashWeight
    by_cases hm : d.hash ∈ acc
    · simp [hm, hsub hm]
    · by_cases hm2 : d.hash ∈ acc ++ [h] <;> simp [hm, hm2]
  unfold potential
  rw [hsplit]
  simp only [List.map_append, List.map_cons, List.sum_append, List.sum_cons]
  have h1 := hle l₁
  have h2 := hle l₂
  have hw1 : hashWeight r (acc ++ [h]) c.hash = 0 := by
    unfold hashWeight
    simp [hh]
  have hw2 : hashWeight r acc c.hash = 1 + (parentsOf r h).length := by
    unfold hashWeight
    simp [hh, hmem]
  omega

theorem reachAux_complete (r : Repo) :
    ∀ (n : Nat) (frontier acc : List String),
      frontier.length + potential r acc ≤ n → InvClosed r frontier acc →
      (∀ x ∈ frontier, x ∈ reachAux r n frontier acc) ∧
      (∀ x ∈ acc, x ∈ reachAux r n frontier acc) ∧
      (∀ a ∈ reachAux r n frontier acc, ∀ p ∈ parentsOf r a, p ∈ reachAux r n frontier acc) := by
  intro n
  induction n with
  | zero =>
    intro frontier acc hn hinv
    have hf : frontier = [] := by
      cases frontier with
      | nil => rfl
      | cons a l => simp at hn
    subst hf
    refine ⟨by simp, fun x hx => by simpa [reachAux] using hx, ?_⟩
    intro a ha p hp
    rcases hinv a (by simpa [reachAux] using ha) p hp with h1 | h1
    · simpa [reachAux] using h1
    · simp at h1
  | succ n ih =>
    intro frontier acc hn hinv
    match frontier with
    | [] =>
      refine ⟨by simp, fun x hx => by simpa [reachAux] using hx, ?_⟩
      intro a ha p hp
      rcases hinv a (by simpa [reachAux] using ha) p hp with h1 | h1
      · simpa [reachAux] using h1
      · simp at h1
    | h :: rest =>
      by_cases hmem : h ∈ acc
      · have heq : reachAux r (n + 1) (h :: rest) acc = reachAux r n rest acc := by
          simp [reachAux, hmem]
        have hn2 : rest.length + potential r acc ≤ n := by
          simp only [List.length_cons] at hn
          omega
        have hinv2 : InvClosed r rest acc := by
          intro a ha p hp
          rcases hinv a ha p hp with h1 | h1
          · exact Or.inl h1
          · rcases List.mem_cons.1 h1 with h2 | h2
            · exact Or.inl (h2 ▸ hmem)
            · exact Or.inr h2
        obtain ⟨hf, ha, hc⟩ := ih rest acc hn2 hinv2
        rw [heq]
        refine ⟨?_, ha, hc⟩
        intro x hx
        rcases List.mem_cons.1 hx with h2 | h2
        · exact ha x (h2 ▸ hmem)
        · exact hf x h2
      · have heq : reachAux r (n + 1) (h :: rest) acc
            = reachAux r n (parentsOf r h ++ rest) (acc ++ [h]) := by
          simp [reachAux, hmem]
        have hn2 : (parentsOf r h ++ rest).length + potential r (acc ++ [h]) ≤ n := by
          cases hlc : lookupCommit r h with
          | none =>
            have hpar : parentsOf r h = [] := by
              unfold parentsOf
              rw [hlc]
            have hpot : potential r (acc ++ [h]) ≤ potential r acc :=
              potential_mono r (List.subset_append_left _ _)
            simp only [hpar, List.nil_append, List.length_cons] at hn ⊢
            omega
          | some c =>
            have hdrop := potential_drop r hlc hmem
            simp only [List.length_append, List.length_cons] at hn ⊢
            omega
        have hinv2 : InvClosed r (parentsOf r h ++ rest) (acc ++ [h]) := by
          intro a ha p hp
          rcases List.mem_append.1 ha with h1 | h1
          · rcases hinv a h1 p hp with h2 | h2
            · exact Or.inl (List.mem_append_left _ h2)
            · rcases List.mem_cons.1 h2 with h3 | h3
              · exact Or.inl (List.mem_append_right _ (by simp [h3]))
              · exact Or.inr (List.mem_append_right _ h3)
          · have hah : a = h := by simpa using h1
            subst hah
            exact Or.inr (List.mem_append_left _ hp)
        obtain ⟨hf, ha, hc⟩ := ih _ _ hn2 hinv2
        rw [heq]
        refine ⟨?_, fun x hx => ha x (List.mem_append_left _ hx), hc⟩
        intro x hx
        rcases List.mem_cons.1 hx with h2 | h2
        · exact ha x (by simp [h2])
        · exact hf x (List.mem_append_right _ h2)

theorem mem_reachList (r : Repo) (s x : String) : x ∈ reachList r s ↔ Reaches r s x := by
  constructor
  · intro hx
    rcases reachAux_sound r (repoFuel r) [s] [] x hx with h1 | ⟨f, hf, hr⟩
    · simp at h1
    · have hfs : f = s := by simpa using hf
      exact hfs ▸ hr
  · intro hr
    have hfuel : ([s] : List String).length + potential r [] ≤ repoFuel r := by
      simp [repoFuel]
    have hinv : InvClosed r [s] [] := by
      intro a ha
      simp at ha
    obtain ⟨hfr, _, hc⟩ := reachAux_complete r (repoFuel r) [s] [] hfuel hinv
    have hs : s ∈ reachAux r (repoFuel r) [s] [] := hfr s (by simp)
    unfold Reaches at hr
    induction hr with
    | refl => exact hs
    | tail hab hstep ih => exact hc _ ih _ hstep

theorem reachList_nodup (r : Repo) (s : String) : (reachList r s).Nodup :=
  reachAux_nodup r (repoFuel r) [s] [] List.nodup_nil

theorem mem_logVisited {r : Repo} {s : String} {w : Int} {visited : List Commit}
    (hl : logCommits r s w = some visited) (c : Commit) :
    c ∈ visited ↔
      (lookupCommit r c.hash = some c ∧ Reaches r s c.hash ∧ w ≤ c.committer.when) := by
  unfold logCommits at hl
  cases hlc : lookupCommit r s with
  | none =>
    rw [hlc] at hl
    simp at hl
  | some c0 =>
    rw [hlc] at hl
    have hv : visited = ((reachList r s).filterMap (lookupCommit r)).filter
        (fun c => decide (w ≤ c.committer.when)) := by
      injection hl with hl
      exact hl.symm
    subst hv
    constructor
    · intro hc
      have hf := List.mem_filter.1 hc
      obtain ⟨a, ha, hfa⟩ := List.mem_filterMap.1 hf.1
      obtain ⟨_, hha⟩ := lookupCommit_hash hfa
      subst hha
      exact ⟨hfa, (mem_reachList r s c.hash).1 ha, by simpa using hf.2⟩
    · rintro ⟨hlc2, hre, hw⟩
      exact List.mem_filter.2
        ⟨List.mem_filterMap.2 ⟨c.hash, (mem_reachList r s c.hash).2 hre, hlc2⟩, by simpa⟩

theorem logVisited_nodup {r : Repo} {s : String} {w : Int} {visited : List Commit}
    (hl : logCommits r s w = some visited) : visited.Nodup := by
  unfold logCommits at hl
  cases hlc : lookupCommit r s with
  | none =>
    rw [hlc] at hl
    simp at hl
  | some c0 =>
    rw [hlc] at hl
    have hv : visited = ((reachList r s).filterMap (lookupCommit r)).filter
        (fun c => decide (w ≤ c.committer.when)) := by
      injection hl with hl
      exact hl.symm
    subst hv
    apply List.Nodup.filter
    apply List.Nodup.filterMap ?inj (reachList_nodup r s)
    intro a a2 b hb hb2
    have h1 := lookupCommit_hash (Option.mem_def.1 hb)
    have h2 := lookupCommit_hash (Option.mem_def.1 hb2)
    rw [← h1.2, h2.2]

theorem logCommits_isSome {r : Repo} {s : String} {c0 : Commit}
    (hl : lookupCommit r s = some c0) (w : Int) :
    logCommits r s w = some (((reachList r s).filterMap (lookupCommit r)).filter
      (fun c => decide (w ≤ c.committer.when))) := by
  unfold logCommits
  rw [hl]

theorem mem_insertKey {s : List String} {x e : String} :
    e ∈ insertKey s x ↔ e ∈ s ∨ e = x := by
  unfold insertKey
  by_cases h : x ∈ s
  · rw [if_pos h]
    constructor
    · exact Or.inl
    · rintro (h1 | rfl)
      · exact h1
      · exact h
  · rw [if_neg h]
    simp

theorem mem_collectEmails_aux (f : Commit → String) :
    ∀ (v : List Commit) (init : List String) (e : String),
      e ∈ v.foldl (fun s c => insertKey s (f c)) init ↔ e ∈ init ∨ ∃ c ∈ v, f c = e := by
  intro v
  induction v with
  | nil =>
    intro init e
    simp
  | cons c v ih =>
    intro init e
    simp only [List.foldl_cons]
    rw [ih]
    constructor
    · rintro (h1 | ⟨d, hd, he⟩)
      · rcases mem_insertKey.1 h1 with h3 | h3
        · exact Or.inl h3
        · exact Or.inr ⟨c, List.mem_cons_self c v, h3.symm⟩
      · exact Or.inr ⟨d, List.mem_cons_of_mem _ hd, he⟩
    · rintro (h1 | ⟨d, hd, he⟩)
      · exact Or.inl (mem_insertKey.2 (Or.inl h1))
      · rcases List.mem_cons.1 hd with h3 | h3
        · exact Or.inl (mem_insertKey.2 (Or.inr (h3 ▸ he).symm))
        · exact Or.inr ⟨d, h3, he⟩

theorem mem_collectEmails (f : Commit → String) (v : List Commit) (e : String) :
    e ∈ collectEmails f v ↔ ∃ c ∈ v, f c = e := by
  unfold collectEmails
  rw [mem_collectEmails_aux]
  simp

theorem collectEmails_ne_nil (f : Commit → String) (v : List Commit) :
    collectEmails f v ≠ [] ↔ ∃ c, c ∈ v := by
  constructor
  · intro hne
    obtain ⟨e, he⟩ := List.exists_mem_of_ne_nil _ hne
    obtain ⟨c, hc, _⟩ := (mem_collectEmails f v e).1 he
    exact ⟨c, hc⟩
  · rintro ⟨c, hc⟩ hnil
    have : f c ∈ collectEmails f v := (mem_collectEmails f v (f c)).2 ⟨c, hc, rfl⟩
    rw [hnil] at this
    simp at this

theorem patchStats_self (t : GitTree) : patchStats t t = [] := by
  unfold patchStats
  rw [List.filterMap_eq_nil_iff]
  intro p hp
  cases hf : lookupFile t p <;> simp [hf]

theorem foldl_statStep (l : List FileStat) :
    ∀ (a d : Int) (ns : List String),
      l.foldl statStep (a, d, ns) =
        (a + (l.map FileStat.addition).sum, d + (l.map FileStat.deletion).sum,
          ns ++ l.map FileStat.name) := by
  induction l with
  | nil =>
    intro a d ns
    simp
  | cons fs l ih =>
    intro a d ns
    simp only [List.foldl_cons, List.map_cons, List.sum_cons]
    rw [show statStep (a, d, ns) fs = (a + fs.addition, d + fs.deletion, ns ++ [fs.name])
      from rfl]
    rw [ih]
    simp [add_assoc, List.append_assoc]

theorem mergeBase_self (r : Repo) (c : Commit) : mergeBase r c c = [c] := by
  unfold mergeBase
  have hself : c.hash ∈ reachList r c.hash :=
    (mem_reachList r c.hash c.hash).2 Relation.ReflTransGen.refl
  simp [hself]

theorem keysOf_committersAttrs (mta : List String → List String) (au co : List String) :
    keysOf (committersAttrs mta au co) =
      (if au.length > 0 then [ScmAuthors] else [])
        ++ (if co.length > 0 then [ScmCommitters] else []) := by
  unfold keysOf committersAttrs
  split_ifs <;> simp

theorem scmKeys_ne : ScmAuthors ≠ ScmCommitters := by
  decide

theorem attrElem_committersAttrs_authors (mta : List String → List String)
    (au co : List String) (e : String) :
    attrElem (committersAttrs mta au co) ScmAuthors e ↔ au.length > 0 ∧ e ∈ mta au := by
  unfold attrElem committersAttrs
  split_ifs with hA hC hC
  · simp [KeyValue.mk.injEq, AttrValue.strList.injEq, scmKeys_ne, hA]
  · simp [KeyValue.mk.injEq, AttrValue.strList.injEq, hA]
  · simp [KeyValue.mk.injEq, AttrValue.strList.injEq, scmKeys_ne, hA]
  · simp [hA]

theorem attrElem_committersAttrs_committers (mta : List String → List String)
    (au co : List String) (e : String) :
    attrElem (committersAttrs mta au co) ScmCommitters e ↔ co.length > 0 ∧ e ∈ mta co := by
  unfold attrElem committersAttrs
  split_ifs with hA hC hC
  · simp [KeyValue.mk.injEq, AttrValue.strList.injEq, scmKeys_ne.symm, hC]
  · simp [KeyValue.mk.injEq, AttrValue.strList.injEq, scmKeys_ne.symm, hC]
  · simp [KeyValue.mk.injEq, AttrValue.strList.injEq, hC]
  · simp [hC]

/-- Claim C2: for a head/target pair with an empty merge-base set the code
is claimed to return a non-nil NoCommonAncestor error and emit no
author/committer attributes.  Evaluating `contributeCommitters` at two
independently rooted commits shows the merge-base set is empty and no
attributes are emitted, but the returned error is nil: the code assigns
`errors.Wrapf(err, ...)` where `err` is the nil error go-git returned
alongside the empty list, and `Wrapf` of a nil error is nil. -/
theorem c2_empty_mergebase_nil_error :
    mergeBase repo2 c2a c2b = [] ∧
    contributeCommitters repo2 c2a c2b = ([], none) ∧
    wrapf none Err.noCommonAncestor = none := by
  decide

/-- Claim C4 (counterexample): on the section-8 scenario repository the
emitted author set also contains the root commit's author (the time bound
includes the ancestor itself), and the diffstat attributes are
additions=0, deletions=3 — the patch is taken from the HEAD tree to the
target tree — so the claimed author set (authors of C2 and C3 only) and
the claimed diffstat (additions=4, deletions=1) are both false. -/
theorem c4_counterexample :
    mergeBase repo4 c4c3 c4c1 = [c4c1] ∧
    attrElem (contributeCommitters repo4 c4c3 c4c1).1 ScmAuthors "alice@example.com" ∧
    KeyValue.mk GitAdditions (AttrValue.int 4) ∉ (contributeFilesAndLines repo4 c4c3 c4c1).1 ∧
    KeyValue.mk GitDeletions (AttrValue.int 1) ∉ (contributeFilesAndLines repo4 c4c3 c4c1).1 :=
  ⟨by decide,
   ⟨["carol@example.com", "bob@example.com", "alice@example.com"], by decide, by decide⟩,
   by decide, by decide⟩

/-- Claim C4 (amended): on the scenario repository the selected common
ancestor is C1; the author and committer sets are those of C1, C2 and C3
(the walk visits every commit reachable from HEAD whose committer time is
at or after C1's author time, which includes C1); and the diffstat computed
from HEAD's tree to the target's tree yields filesChanged=1, additions=0,
deletions=3. -/
theorem c4_amended_scenario :
    mergeBase repo4 c4c3 c4c1 = [c4c1] ∧
    contributeCommitters repo4 c4c3 c4c1 =
      ([⟨ScmAuthors, AttrValue.strList
          ["carol@example.com", "bob@example.com", "alice@example.com"]⟩,
        ⟨ScmCommitters, AttrValue.strList
          ["carol@example.com", "bob@example.com", "alice@example.com"]⟩], none) ∧
    contributeFilesAndLines repo4 c4c3 c4c1 =
      ([⟨GitAdditions, AttrValue.int 0⟩, ⟨GitDeletions, AttrValue.int 3⟩,
        ⟨GitModifiedFiles, AttrValue.int 1⟩], none) := by
  decide

/-- Claim C10: when opening the local repository fails the orchestrator
returns the empty attribute list, and when it succeeds the returned list is
non-empty with the scm-type/"git" pair first. -/
theorem c10_first_attribute :
    (∀ env, contributeAttributes none env = []) ∧
    (∀ (r : Repo) (env : Env), ∃ rest, contributeAttributes (some r) env
        = KeyValue.mk ScmType (AttrValue.str "git") :: rest) := by
  refine ⟨fun env => rfl, ?_⟩
  intro r env
  unfold contributeAttributes
  by_cases hp : (checkGitProvider env).2.2 = "" <;>
    cases h1 : lookupStr r.remotes "origin" <;>
    cases h2 : r.headRef <;>
    cases h3 : calculateCommits r (checkGitProvider env).1 (checkGitProvider env).2.1 <;>
    simp [hp, h1, h2, h3]

/-- Claim C6: the revision-resolution contract of `calculateCommits`.
Target side: an absent branch configuration fails with
unknownTargetBranch, an unresolvable merge reference with
unresolvableTargetRef, a missing commit object with missingTargetCommit.
Head side: an empty explicit revision reads the current HEAD pointer
(noHeadRef when absent) while a non-empty one is used directly as a
content hash with no symbolic lookup; a missing head commit object fails
with missingHeadCommit; on success both commits are returned.  The model
is a pure function of the repository value, so repeated calls agree and
the repository is unchanged by construction. -/
theorem c6_revision_resolution (r : Repo) (headSha targetBranchEnv : String) :
    (lookupStr r.branches targetBranchEnv = none →
      calculateCommits r headSha targetBranchEnv = .error .unknownTargetBranch) ∧
    (∀ m, lookupStr r.branches targetBranchEnv = some m →
      lookupStr r.refs m = none →
      calculateCommits r headSha targetBranchEnv = .error .unresolvableTargetRef) ∧
    (∀ m th, lookupStr r.branches targetBranchEnv = some m →
      lookupStr r.refs m = some th → lookupCommit r th = none →
      calculateCommits r headSha targetBranchEnv = .error .missingTargetCommit) ∧
    (∀ m th tc, lookupStr r.branches targetBranchEnv = some m →
      lookupStr r.refs m = some th → lookupCommit r th = some tc →
      headSha = "" → r.headRef = none →
      calculateCommits r headSha targetBranchEnv = .error .noHeadRef) ∧
    (∀ m th tc br, lookupStr r.branches targetBranchEnv = some m →
      lookupStr r.refs m = some th → lookupCommit r th = some tc →
      headSha = "" → r.headRef = some br → lookupCommit r br.2 = none →
      calculateCommits r headSha targetBranchEnv = .error .missingHeadCommit) ∧
    (∀ m th tc br hc, lookupStr r.branches targetBranchEnv = some m →
      lookupStr r.refs m = some th → lookupCommit r th = some tc →
      headSha = "" → r.headRef = some br → lookupCommit r br.2 = some hc →
      calculateCommits r headSha targetBranchEnv = .ok (hc, tc)) ∧
    (∀ m th tc, lookupStr r.branches targetBranchEnv = some m →
      lookupStr r.refs m = some th → lookupCommit r th = some tc →
      headSha ≠ "" → lookupCommit r (newHash headSha) = none →
      calculateCommits r headSha targetBranchEnv = .error .missingHeadCommit) ∧
    (∀ m th tc hc, lookupStr r.branches targetBranchEnv = some m →
      lookupStr r.refs m = some th → lookupCommit r th = some tc →
      headSha ≠ "" → lookupCommit r (newHash headSha) = some hc →
      calculateCommits r headSha targetBranchEnv = .ok (hc, tc)) := by
  refine ⟨?_, ?_, ?_, ?_, ?_, ?_, ?_, ?_⟩
  · intro h1
    simp [calculateCommits, h1]
  · intro m h1 h2
    simp [calculateCommits, h1, h2]
  · intro m th h1 h2 h3
    simp [calculateCommits, h1, h2, h3]
  · intro m th tc h1 h2 h3 h4 h5
    simp [calculateCommits, h1, h2, h3, h4, h5]
  · intro m th tc br h1 h2 h3 h4 h5 h6
    simp [calculateCommits, h1, h2, h3, h4, h5, h6]
  · intro m th tc br hc h1 h2 h3 h4 h5 h6
    simp [calculateCommits, h1, h2, h3, h4, h5, h6]
  · intro m th tc h1 h2 h3 h4 h5
    simp only [newHash] at h5
    simp [calculateCommits, newHash, h1, h2, h3, h4, h5]
  · intro m th tc hc h1 h2 h3 h4 h5
    simp only [newHash] at h5
    simp [calculateCommits, newHash, h1, h2, h3, h4, h5]

/-- Witness for C6: in the empty repository the target branch lookup
fails with unknownTargetBranch. -/
theorem c6_witness :
    calculateCommits repoEmpty "" "main" = .error .unknownTargetBranch :=
  (c6_revision_resolution repoEmpty "" "main").1 (by decide)

/-- Claim C1: `contributeAttributes` is total (its Go signature has no
error result and the model returns a plain list); whichever stage fails
first, the returned bag is exactly the attributes accumulated by the
stages that succeeded before it, and a failing contribution stage is
skipped without touching attributes appended earlier: with both commits
resolved the output is the base attributes, remote and branch entries,
followed by the committers contribution when error-free and then the
diffstat contribution when error-free. -/
theorem c1_graceful_degradation (env : Env) (r : Repo) :
    (contributeAttributes none env = []) ∧
    (lookupStr r.remotes "origin" = none →
      contributeAttributes (some r) env = baseAttrs env) ∧
    (∀ urls, lookupStr r.remotes "origin" = some urls → r.headRef = none →
      contributeAttributes (some r) env =
        baseAttrs env ++ [⟨ScmRepository, AttrValue.strList urls⟩]) ∧
    (∀ urls br e, lookupStr r.remotes "origin" = some urls → r.headRef = some br →
      calculateCommits r (checkGitProvider env).1 (checkGitProvider env).2.1 = .error e →
      contributeAttributes (some r) env =
        baseAttrs env ++ [⟨ScmRepository, AttrValue.strList urls⟩]
          ++ [⟨ScmBranch, AttrValue.str br.1⟩]) ∧
    (∀ urls br hc tc, lookupStr r.remotes "origin" = some urls → r.headRef = some br →
      calculateCommits r (checkGitProvider env).1 (checkGitProvider env).2.1 = .ok (hc, tc) →
      contributeAttributes (some r) env =
        baseAttrs env ++ [⟨ScmRepository, AttrValue.strList urls⟩]
          ++ [⟨ScmBranch, AttrValue.str br.1⟩]
          ++ okAttrs (contributeCommitters r hc tc)
          ++ okAttrs (contributeFilesAndLines r hc tc)) := by
  refine ⟨rfl, ?_, ?_, ?_, ?_⟩
  · intro h1
    by_cases hp : (checkGitProvider env).2.2 = "" <;>
      simp [contributeAttributes, baseAttrs, hp, h1]
  · intro urls h1 h2
    by_cases hp : (checkGitProvider env).2.2 = "" <;>
      simp [contributeAttributes, baseAttrs, hp, h1, h2]
  · intro urls br e h1 h2 h3
    by_cases hp : (checkGitProvider env).2.2 = "" <;>
      simp [contributeAttributes, baseAttrs, hp, h1, h2, h3]
  · intro urls br hc tc h1 h2 h3
    by_cases hp : (checkGitProvider env).2.2 = "" <;>
      simp [contributeAttributes, baseAttrs, hp, h1, h2, h3]

/-- Witness for C1: on the empty repository the remote lookup fails and
the orchestrator returns the base attributes. -/
theorem c1_witness :
    contributeAttributes (some repoEmpty) envEmpty
      = [KeyValue.mk ScmType (AttrValue.str "git")] := by
  have h := (c1_graceful_degradation envEmpty repoEmpty).2.1 (by decide)
  rw [h]
  decide

/-- Claim C3: with a non-empty merge-base set the committers computation
selects the first returned merge-base as ancestor and succeeds (nil
error); the walk visits exactly the commits reachable from the head
commit whose committer timestamp is at or after the ancestor's author
timestamp, each at most once; and the emitted author (committer) set
consists exactly of the author (committer) emails of the visited commits.
The closed-store hypothesis records the situation in which go-git's
iterator never aborts on a missing object, matching the model. -/
theorem c3_bounded_walk (r : Repo) (headCommit targetCommit ancestor : Commit)
    (restMB : List Commit)
    (_hclosed : ClosedRepo r)
    (hmb : mergeBase r headCommit targetCommit = ancestor :: restMB)
    (hhead : lookupCommit r headCommit.hash = some headCommit) :
    (contributeCommitters r headCommit targetCommit).2 = none ∧
    ∃ visited,
      logCommits r headCommit.hash ancestor.author.when = some visited ∧
      visited.Nodup ∧
      (∀ c, c ∈ visited ↔ (lookupCommit r c.hash = some c ∧
        Reaches r headCommit.hash c.hash ∧ ancestor.author.when ≤ c.committer.when)) ∧
      contributeCommitters r headCommit targetCommit =
        (committersAttrs id (collectEmails (fun c => c.author.email) visited)
          (collectEmails (fun c => c.committer.email) visited), none) ∧
      (∀ e, e ∈ collectEmails (fun c => c.author.email) visited ↔
        ∃ c ∈ visited, c.author.email = e) ∧
      (∀ e, e ∈ collectEmails (fun c => c.committer.email) visited ↔
        ∃ c ∈ visited, c.committer.email = e) := by
  have hlog := logCommits_isSome hhead ancestor.author.when
  have hprog : contributeCommitters r headCommit targetCommit =
      (committersAttrs id
        (collectEmails (fun c => c.author.email)
          (((reachList r headCommit.hash).filterMap (lookupCommit r)).filter
            (fun c => decide (ancestor.author.when ≤ c.committer.when))))
        (collectEmails (fun c => c.committer.email)
          (((reachList r headCommit.hash).filterMap (lookupCommit r)).filter
            (fun c => decide (ancestor.author.when ≤ c.committer.when)))), none) := by
    simp [contributeCommitters, contributeCommittersEnum, hmb, hlog]
  refine ⟨by rw [hprog], _, hlog, logVisited_nodup hlog,
    fun c => mem_logVisited hlog c, hprog,
    fun e => mem_collectEmails _ _ e, fun e => mem_collectEmails _ _ e⟩

/-- Witness for C3 on the scenario repository. -/
theorem c3_witness : (contributeCommitters repo4 c4c3 c4c1).2 = none :=
  (c3_bounded_walk repo4 c4c3 c4c1 c4c1 [] (by decide) (by decide) (by decide)).1

/-- Claim C5 (counterexample): with HEAD equal to the target at a single
stored commit, the author and committer sets contain that commit's
identities and the scm-authors/scm-committers attributes are emitted,
contradicting the claimed empty sets and suppressed attributes. -/
theorem c5_counterexample :
    (contributeCommitters repo5 c5c c5c).1 =
      [⟨ScmAuthors, AttrValue.strList ["alice@example.com"]⟩,
       ⟨ScmCommitters, AttrValue.strList ["alice@example.com"]⟩] ∧
    (contributeCommitters repo5 c5c c5c).1 ≠ [] := by
  decide

/-- Claim C5 (amended): when head equals target the selected ancestor is
the head commit itself, and — whenever the head commit's committer time is
at or after its own author time — the walk visits at least the head
commit, so both email sets contain the head commit's identities and both
list attributes are emitted; the diffstat over the two identical trees
yields additions=0, deletions=0, filesChanged=0. -/
theorem c5_head_eq_target (r : Repo) (c : Commit) (t : GitTree)
    (_hclosed : ClosedRepo r)
    (hmem : lookupCommit r c.hash = some c)
    (hwhen : c.author.when ≤ c.committer.when)
    (htree : lookupStr r.trees c.treeHash = some t) :
    mergeBase r c c = [c] ∧
    (∃ au co, contributeCommitters r c c =
        ([⟨ScmAuthors, AttrValue.strList au⟩, ⟨ScmCommitters, AttrValue.strList co⟩], none) ∧
      c.author.email ∈ au ∧ c.committer.email ∈ co) ∧
    contributeFilesAndLines r c c =
      ([⟨GitAdditions, AttrValue.int 0⟩, ⟨GitDeletions, AttrValue.int 0⟩,
        ⟨GitModifiedFiles, AttrValue.int 0⟩], none) := by
  have hmb := mergeBase_self r c
  obtain ⟨visited, hlog⟩ : ∃ v, logCommits r c.hash c.author.when = some v :=
    ⟨_, logCommits_isSome hmem c.author.when⟩
  have hcvis : c ∈ visited :=
    (mem_logVisited hlog c).2 ⟨hmem, Relation.ReflTransGen.refl, hwhen⟩
  have hau : c.author.email ∈ collectEmails (fun d => d.author.email) visited :=
    (mem_collectEmails _ _ _).2 ⟨c, hcvis, rfl⟩
  have hco : c.committer.email ∈ collectEmails (fun d => d.committer.email) visited :=
    (mem_collectEmails _ _ _).2 ⟨c, hcvis, rfl⟩
  have hlen1 : (collectEmails (fun d => d.author.email) visited).length > 0 :=
    List.length_pos.2 (List.ne_nil_of_mem hau)
  have hlen2 : (collectEmails (fun d => d.committer.email) visited).length > 0 :=
    List.length_pos.2 (List.ne_nil_of_mem hco)
  refine ⟨hmb, ⟨_, _, ?_, hau, hco⟩, ?_⟩
  · simp [contributeCommitters, contributeCommittersEnum, hmb, hlog,
      committersAttrs, hlen1, hlen2]
  · simp [contributeFilesAndLines, htree, patchStats_self]

/-- Witness for C5 (amended) on the single-commit repository. -/
theorem c5_witness :
    contributeFilesAndLines repo5 c5c c5c =
      ([⟨GitAdditions, AttrValue.int 0⟩, ⟨GitDeletions, AttrValue.int 0⟩,
        ⟨GitModifiedFiles, AttrValue.int 0⟩], none) :=
  (c5_head_eq_target repo5 c5c ([("a.txt", ["hello"])] : GitTree)
    (by decide) (by decide) (by decide) (by decide)).2.2

/-- Claim C7: when the committers computation reaches the aggregation step
(non-empty merge-base, walk succeeded), an empty author or committer set
is not an error — the returned error is nil — and each list-valued key is
present in the output exactly when its collected set is non-empty. -/
theorem c7_empty_set_suppression (r : Repo) (hC tC ancestor : Commit)
    (restMB : List Commit) (visited : List Commit)
    (hmb : mergeBase r hC tC = ancestor :: restMB)
    (hlog : logCommits r hC.hash ancestor.author.when = some visited) :
    (contributeCommitters r hC tC).2 = none ∧
    (ScmAuthors ∈ keysOf (contributeCommitters r hC tC).1 ↔
      collectEmails (fun c => c.author.email) visited ≠ []) ∧
    (ScmCommitters ∈ keysOf (contributeCommitters r hC tC).1 ↔
      collectEmails (fun c => c.committer.email) visited ≠ []) := by
  have hprog : contributeCommitters r hC tC =
      (committersAttrs id (collectEmails (fun c => c.author.email) visited)
        (collectEmails (fun c => c.committer.email) visited), none) := by
    simp [contributeCommitters, contributeCommittersEnum, hmb, hlog]
  rw [hprog]
  refine ⟨rfl, ?_, ?_⟩
  · rw [keysOf_committersAttrs]
    by_cases ha : collectEmails (fun c => c.author.email) visited = [] <;>
      by_cases hc : collectEmails (fun c => c.committer.email) visited = [] <;>
      simp [ha, hc, List.length_pos, scmKeys_ne]
  · rw [keysOf_committersAttrs]
    by_cases ha : collectEmails (fun c => c.author.email) visited = [] <;>
      by_cases hc : collectEmails (fun c => c.committer.email) visited = [] <;>
      simp [ha, hc, List.length_pos, scmKeys_ne.symm]

/-- Witness for C7: a repository whose bounded walk visits no commit (the
head commit's committer time precedes the author-time bound): the
computation succeeds and the scm-authors key is suppressed. -/
theorem c7_witness :
    (contributeCommitters repo7 c7c c7c).2 = none ∧
    ScmAuthors ∉ keysOf (contributeCommitters repo7 c7c c7c).1 :=
  have h := c7_empty_set_suppression repo7 c7c c7c c7c [] []
    (by decide) (by decide)
  ⟨h.1, fun hin => (h.2.1.mp hin) rfl⟩

/-- Claim C8: the diffstat aggregation is a commutative reduction: the
emitted additions and deletions are the sums of the per-file counts of the
patch between the two trees, the emitted file count is the number of patch
entries, and any permutation of the patch entries has the same sums and
length. -/
theorem c8_commutative_aggregation (r : Repo) (hC tC : Commit) (ht tt : GitTree)
    (hht : lookupStr r.trees hC.treeHash = some ht)
    (htt : lookupStr r.trees tC.treeHash = some tt) :
    contributeFilesAndLines r hC tC =
      ([⟨GitAdditions, AttrValue.int ((patchStats ht tt).map FileStat.addition).sum⟩,
        ⟨GitDeletions, AttrValue.int ((patchStats ht tt).map FileStat.deletion).sum⟩,
        ⟨GitModifiedFiles, AttrValue.int ((patchStats ht tt).length : Int)⟩], none) ∧
    (∀ l2, (patchStats ht tt).Perm l2 →
      (l2.map FileStat.addition).sum = ((patchStats ht tt).map FileStat.addition).sum ∧
      (l2.map FileStat.deletion).sum = ((patchStats ht tt).map FileStat.deletion).sum ∧
      l2.length = (patchStats ht tt).length) := by
  constructor
  · simp [contributeFilesAndLines, hht, htt, foldl_statStep]
  · intro l2 hperm
    exact ⟨((hperm.map FileStat.addition).sum_eq).symm,
      ((hperm.map FileStat.deletion).sum_eq).symm, hperm.length_eq.symm⟩

/-- Witness for C8 on the scenario repository: the aggregate of the patch
between C3's tree and C1's tree. -/
theorem c8_witness :
    contributeFilesAndLines repo4 c4c3 c4c1 =
      ([⟨GitAdditions, AttrValue.int 0⟩, ⟨GitDeletions, AttrValue.int 3⟩,
        ⟨GitModifiedFiles, AttrValue.int 1⟩], none) := by
  have h := (c8_commutative_aggregation repo4 c4c3 c4c1
    ([("a.txt", ["one", "two", "four"])] : GitTree) ([] : GitTree)
    (by decide) (by decide)).1
  rw [h]
  decide

/-- Claim C9: the committers computation is deterministic up to the
unspecified Go map enumeration order — two runs whose `mapToArray`
enumerations are arbitrary permutations of the key set return the same
error, the same attribute keys, and the same author and committer sets
(membership of the emitted lists).  The embedding is a pure function of
the repository value: the source performs only read operations, so no run
mutates repository state. -/
theorem c9_determinism (e1 e2 : List String → List String)
    (h1 : ∀ l, (e1 l).Perm l) (h2 : ∀ l, (e2 l).Perm l)
    (r : Repo) (hC tC : Commit) :
    (contributeCommittersEnum e1 r hC tC).2 = (contributeCommittersEnum e2 r hC tC).2 ∧
    keysOf (contributeCommittersEnum e1 r hC tC).1
      = keysOf (contributeCommittersEnum e2 r hC tC).1 ∧
    (∀ e, attrElem (contributeCommittersEnum e1 r hC tC).1 ScmAuthors e ↔
      attrElem (contributeCommittersEnum e2 r hC tC).1 ScmAuthors e) ∧
    (∀ e, attrElem (contributeCommittersEnum e1 r hC tC).1 ScmCommitters e ↔
      attrElem (contributeCommittersEnum e2 r hC tC).1 ScmCommitters e) := by
  cases hmb : mergeBase r hC tC with
  | nil =>
    have p1 : contributeCommittersEnum e1 r hC tC = ([], none) := by
      simp [contributeCommittersEnum, wrapf, hmb]
    have p2 : contributeCommittersEnum e2 r hC tC = ([], none) := by
      simp [contributeCommittersEnum, wrapf, hmb]
    rw [p1, p2]
    exact ⟨rfl, rfl, fun e => Iff.rfl, fun e => Iff.rfl⟩
  | cons anc restMB =>
    cases hlog : logCommits r hC.hash anc.author.when with
    | none =>
      have p1 : contributeCommittersEnum e1 r hC tC = ([], some Err.logFailure) := by
        simp [contributeCommittersEnum, hmb, hlog]
      have p2 : contributeCommittersEnum e2 r hC tC = ([], some Err.logFailure) := by
        simp [contributeCommittersEnum, hmb, hlog]
      rw [p1, p2]
      exact ⟨rfl, rfl, fun e => Iff.rfl, fun e => Iff.rfl⟩
    | some visited =>
      have p1 : contributeCommittersEnum e1 r hC tC =
          (committersAttrs e1 (collectEmails (fun c => c.author.email) visited)
            (collectEmails (fun c => c.committer.email) visited), none) := by
        simp [contributeCommittersEnum, hmb, hlog]
      have p2 : contributeCommittersEnum e2 r hC tC =
          (committersAttrs e2 (collectEmails (fun c => c.author.email) visited)
            (collectEmails (fun c => c.committer.email) visited), none) := by
        simp [contributeCommittersEnum, hmb, hlog]
      rw [p1, p2]
      refine ⟨rfl, ?_, ?_, ?_⟩
      · rw [keysOf_committersAttrs, keysOf_committersAttrs]
      · intro e
        rw [attrElem_committersAttrs_authors, attrElem_committersAttrs_authors]
        constructor
        · rintro ⟨hl, he⟩
          exact ⟨hl, ((h2 _).mem_iff).2 (((h1 _).mem_iff).1 he)⟩
        · rintro ⟨hl, he⟩
          exact ⟨hl, ((h1 _).mem_iff).2 (((h2 _).mem_iff).1 he)⟩
      · intro e
        rw [attrElem_committersAttrs_committers, attrElem_committersAttrs_committers]
        constructor
        · rintro ⟨hl, he⟩
          exact ⟨hl, ((h2 _).mem_iff).2 (((h1 _).mem_iff).1 he)⟩
        · rintro ⟨hl, he⟩
          exact ⟨hl, ((h1 _).mem_iff).2 (((h2 _).mem_iff).1 he)⟩

/-- Witness for C9: the identity enumeration and the reversing enumeration
agree on the single-commit repository. -/
theorem c9_witness :
    (contributeCommittersEnum id repo5 c5c c5c).2
      = (contributeCommittersEnum List.reverse repo5 c5c c5c).2 :=
  (c9_determinism id List.reverse (fun l => List.Perm.refl l)
    (fun l => l.reverse_perm) repo5 c5c c5c).1
